import Mathlib

/-!
Verification development for the Othello engine of this repository
(`game.js`: class `OthelloGame`, `ai.js`: class `OthelloAI`).

The board is the JS value `this.board`: an array of 8 row arrays whose
entries are the numbers `EMPTY = 0`, `BLACK = 1`, `WHITE = 2`.  We embed it
as `List (List Nat)`.  Cell reads `board[r][c]` are embedded by `getCell`
(with default `0`, which is only relevant for malformed boards the JS code
never builds), in-place cell writes `board[r][c] = v` by `setCell`, which
returns the post-write contents of the array.  Methods that mutate
`this.board` are embedded in state-passing style: they return the contents
of the mutated array after the call.
-/

/-- Cell value `EMPTY = 0` (`game.js` constructor). -/
def EMPTY : Nat := 0

/-- Cell value `BLACK = 1` (`game.js` constructor). -/
def BLACK : Nat := 1

/-- Cell value `WHITE = 2` (`game.js` constructor). -/
def WHITE : Nat := 2

/-- Board embedding: the JS array-of-arrays of cell numbers. -/
def Board : Type := List (List Nat)

instance : DecidableEq Board := inferInstanceAs (DecidableEq (List (List Nat)))

/-- Read `board[r][c]`; out-of-range reads (never performed by the JS code on
well-formed boards) default to `0`. -/
def getCell (b : Board) (r c : Nat) : Nat := (b.getD r []).getD c 0

/-- Write `board[r][c] = v` and return the array contents after the write. -/
def setCell (b : Board) (r c : Nat) (v : Nat) : Board :=
  b.set r ((b.getD r []).set c v)

/-- A board is well formed when it is an 8 by 8 grid, as built by `newGame`. -/
def WF (b : Board) : Prop := b.length = 8 ∧ ∀ i, i < 8 → (b.getD i []).length = 8

instance : DecidablePred WF := fun b =>
  decidable_of_iff (b.length = 8 ∧ ∀ i ∈ List.range 8, (b.getD i []).length = 8)
    (by simp [WF])

/-- The guard `isValidPosition(row, col)` shared by both classes.  Scan
positions can go negative, so it takes integers. -/
def isValidPosition (r c : Int) : Bool :=
  0 ≤ r && r < 8 && 0 ≤ c && c < 8

/-- Read a cell at integer coordinates; only used under `isValidPosition`. -/
def getCellI (b : Board) (r c : Int) : Nat := getCell b r.toNat c.toNat

/-- The 8 scan directions, in source order (`game.js` constructor; the same
literal is repeated inside `OthelloAI.canPlaceStone` and `OthelloAI.getFlips`). -/
def directions : List (Int × Int) :=
  [(-1, 0), (-1, 1), (0, 1), (1, 1), (1, 0), (1, -1), (0, -1), (-1, -1)]

/-- Opponent computation `player === this.BLACK ? this.WHITE : this.BLACK`
(`OthelloGame.getFlips`). -/
def oppGame (p : Nat) : Nat := if p = BLACK then WHITE else BLACK

/-- Opponent computation `player === this.WHITE ? this.BLACK : this.WHITE`
(used throughout `OthelloAI`). -/
def oppAI (p : Nat) : Nat := if p = WHITE then BLACK else WHITE

/-- The directional scan loop shared verbatim by `OthelloGame.getFlips`,
`OthelloAI.getFlips` and (with a boolean flag in place of the collected list)
`OthelloAI.canPlaceStone`:

`while (isValidPosition(r, c) && board[r][c] === opponent) { temp.push([r, c]); r += dr; c += dc; }`

It returns the collected run together with the loop's final `(r, c)`. The
`fuel` argument only bounds the recursion; a scan started next to an
in-bounds origin stays in bounds for at most 7 steps, so with the fuel of 16
used below the fuel is never exhausted and the function is exactly the loop. -/
def scanRun (b : Board) (opp : Nat) : Nat → Int → Int → Int → Int → List (Int × Int) × Int × Int
  | 0, _, _, r, c => ([], r, c)
  | fuel + 1, dr, dc, r, c =>
    if isValidPosition r c ∧ getCellI b r c = opp then
      let rest := scanRun b opp fuel dr dc (r + dr) (c + dc)
      ((r, c) :: rest.1, rest.2)
    else ([], r, c)

/-- One direction of the flip computation: run the scan from the first cell
past the origin and keep the run iff it ends in bounds on one of `player`'s
discs and is non-empty
(`if (isValidPosition(r, c) && board[r][c] === player && temp.length > 0)`). -/
def dirFlips (b : Board) (player opp : Nat) (row col : Nat) (d : Int × Int) :
    List (Int × Int) :=
  let s := scanRun b opp 16 d.1 d.2 ((row : Int) + d.1) ((col : Int) + d.2)
  if isValidPosition s.2.1 s.2.2 ∧ getCellI b s.2.1 s.2.2 = player ∧ s.1 ≠ [] then s.1
  else []

/-- The direction loop `for (const [dr, dc] of directions) { ...; flips.push(...temp); }`
common to both `getFlips` implementations, with the opponent value passed in
(the two classes compute it with differently-ordered but equivalent ternaries). -/
def flipsCore (b : Board) (player opp : Nat) (row col : Nat) : List (Int × Int) :=
  directions.flatMap (dirFlips b player opp row col)

/-- Embedding of `OthelloGame.getFlips(row, col, player)`: guarded by
`if (this.board[row][col] !== this.EMPTY) return [];`. -/
def gameGetFlips (b : Board) (row col player : Nat) : List (Int × Int) :=
  if getCell b row col ≠ EMPTY then [] else flipsCore b player (oppGame player) row col

/-- Embedding of `OthelloAI.getFlips(board, row, col, player)`: the same scan but with no
occupancy guard on the origin cell. -/
def aiGetFlips (b : Board) (row col player : Nat) : List (Int × Int) :=
  flipsCore b player (oppAI player) row col

/-- A legal move as emitted by both move enumerators: `{ row, col, flips: flips.length }`. -/
structure Move where
  row : Nat
  col : Nat
  flips : Nat
deriving DecidableEq, Repr

/-- All 64 cells in the row-major order of the nested
`for (row ...) for (col ...)` loops. -/
def allCells : List (Nat × Nat) :=
  (List.range 8).flatMap (fun r => (List.range 8).map (fun c => (r, c)))

/-- Embedding of `OthelloGame.getValidMoves(player)`: scan all cells in row-major order,
emitting a move for each empty cell whose flip list is non-empty. -/
def gameGetValidMoves (b : Board) (player : Nat) : List Move :=
  allCells.flatMap (fun q =>
    if getCell b q.1 q.2 = EMPTY then
      let flips := gameGetFlips b q.1 q.2 player
      if flips.length > 0 then [⟨q.1, q.2, flips.length⟩] else []
    else [])

/-- Embedding of `OthelloAI.getValidMovesForBoard(board, player, game)`: identical scan
using the AI's own `getFlips`. -/
def aiGetValidMovesForBoard (b : Board) (player : Nat) : List Move :=
  allCells.flatMap (fun q =>
    if getCell b q.1 q.2 = EMPTY then
      let flips := aiGetFlips b q.1 q.2 player
      if flips.length > 0 then [⟨q.1, q.2, flips.length⟩] else []
    else [])

/-- Embedding of `OthelloGame.makeMove(row, col, player)` in state-passing form: the
boolean result of the JS method paired with the contents of `this.board`
after the call (the method writes the placement and the flips directly into
`this.board`; the DOM animation code it also runs is presentation-layer). -/
def makeMove (b : Board) (row col player : Nat) : Bool × Board :=
  if getCell b row col ≠ EMPTY then (false, b)
  else
    let flips := gameGetFlips b row col player
    if flips.length = 0 then (false, b)
    else
      let b1 := setCell b row col player
      (true, flips.foldl (fun bd q => setCell bd q.1.toNat q.2.toNat player) b1)

/-- Embedding of `OthelloAI.copyBoard(board)`: `board.map(row => [...row])`, a value-equal
fresh copy (`OthelloGame.copyBoard` is the same expression). -/
def copyBoard (b : Board) : Board := b.map (fun row => row)

/-- Embedding of `OthelloAI.makeTestMove(board, row, col, player, game)`: writes the
placement into the (copied) board, then computes the flips on the board that
already contains the placement, then writes the flips.  Returns the board
contents after the call. -/
def makeTestMove (b : Board) (row col player : Nat) : Board :=
  let b1 := setCell b row col player
  let flips := aiGetFlips b1 row col player
  flips.foldl (fun bd q => setCell bd q.1.toNat q.2.toNat player) b1

/-- Embedding of `OthelloGame.countStones()`: the row-major double loop counting black and
white discs; returns `(black, white)`. -/
def countStones (b : Board) : Nat × Nat :=
  allCells.foldl (fun acc q =>
    if getCell b q.1 q.2 = BLACK then (acc.1 + 1, acc.2)
    else if getCell b q.1 q.2 = WHITE then (acc.1, acc.2 + 1)
    else acc) (0, 0)

/-- The board built by `OthelloGame.newGame()`: an 8 by 8 grid of `EMPTY`
with the four centre discs assigned through `mid = 4`. -/
def initialBoard : Board :=
  setCell (setCell (setCell (setCell
    (List.replicate 8 (List.replicate 8 EMPTY))
    3 3 WHITE) 3 4 BLACK) 4 3 BLACK) 4 4 WHITE

/-- The fixed `positionWeights` matrix of the `OthelloAI` constructor. -/
def positionWeights : List (List Int) :=
  [[100, -20,  10,   5,   5,  10, -20, 100],
   [-20, -50,  -2,  -2,  -2,  -2, -50, -20],
   [ 10,  -2,   5,   1,   1,   5,  -2,  10],
   [  5,  -2,   1,   0,   0,   1,  -2,   5],
   [  5,  -2,   1,   0,   0,   1,  -2,   5],
   [ 10,  -2,   5,   1,   1,   5,  -2,  10],
   [-20, -50,  -2,  -2,  -2,  -2, -50, -20],
   [100, -20,  10,   5,   5,  10, -20, 100]]

/-- Lookup `this.positionWeights[row][col]`. -/
def weightAt (q : Nat × Nat) : Int := (positionWeights.getD q.1 []).getD q.2 0

/-- Embedding of `OthelloAI.canPlaceStone(board, row, col, player)`: the direction loop
returns `true` as soon as a direction has a non-empty opponent run that ends
in bounds on one of `player`'s discs (the JS tracks the run with the
`hasOpponent` flag instead of a list; `scanRun`'s collected run is non-empty
exactly when that flag is set). -/
def canPlaceStone (b : Board) (row col player : Nat) : Bool :=
  if getCell b row col ≠ EMPTY then false
  else
    directions.any (fun d =>
      let s := scanRun b (oppAI player) 16 d.1 d.2 ((row : Int) + d.1) ((col : Int) + d.2)
      s.1 ≠ [] && isValidPosition s.2.1 s.2.2 && getCellI b s.2.1 s.2.2 = player)

/-- Embedding of `OthelloAI.countMobility(board, player)`: count the empty cells where a
stone can be placed. -/
def countMobility (b : Board) (player : Nat) : Nat :=
  allCells.foldl (fun cnt q =>
    if getCell b q.1 q.2 = EMPTY then
      if canPlaceStone b q.1 q.2 player then cnt + 1 else cnt
    else cnt) 0

/-- Embedding of `OthelloAI.evaluateBoard(board, player)`.  The single row-major loop of
the source accumulates the positional score together with the two stone
counters; we accumulate the same triple.  The JS phase tests compare the
double `totalStones / 64` against the double literal `0.7`; for the integer
stone totals `0 ≤ t ≤ 64` the test `t / 64 > 0.7` holds exactly when
`t ≥ 45` and `t / 64 < 0.7` exactly when `t ≤ 44` (the IEEE value of `0.7`
lies strictly between `44/64` and `45/64`), so we state the comparisons as
the equivalent integer tests `10 * t > 448` and `10 * t < 448`. -/
def evaluateBoard (b : Board) (player : Nat) : Int :=
  let opponent := oppAI player
  let t := allCells.foldl (fun acc q =>
    if getCell b q.1 q.2 = player then (acc.1 + weightAt q, acc.2.1 + 1, acc.2.2)
    else if getCell b q.1 q.2 = opponent then (acc.1 - weightAt q, acc.2.1, acc.2.2 + 1)
    else acc) ((0 : Int), (0 : Nat), (0 : Nat))
  let playerStones := t.2.1
  let opponentStones := t.2.2
  let totalStones := playerStones + opponentStones
  let score2 := if 10 * totalStones > 448 then
      t.1 + ((playerStones : Int) - (opponentStones : Int)) * 10
    else t.1
  let score3 := if 10 * totalStones < 448 then
      score2 + ((countMobility b player : Int) - (countMobility b opponent : Int)) * 5
    else score2
  [((0 : Nat), (0 : Nat)), (0, 7), (7, 0), (7, 7)].foldl (fun s q =>
    if getCell b q.1 q.2 = player then s + 100
    else if getCell b q.1 q.2 = opponent then s - 100
    else s) score3

/-- Number of cells of the 8 by 8 grid holding the value `v`. -/
def cnt (b : Board) (v : Nat) : Nat :=
  allCells.countP (fun q => decide (getCell b q.1 q.2 = v))

/-- Search scores.  The JS minimax works with JS numbers including the
literals `-Infinity` and `Infinity` used to initialise `alpha`, `beta` and
the running extrema; all other scores are the integers produced by
`evaluateBoard`.  We model the score domain explicitly. -/
inductive Score where
  | negInf : Score
  | val : Int → Score
  | posInf : Score
deriving DecidableEq, Repr

/-- Boolean comparison realising the JS `<=` on scores including infinities. -/
def Score.ble : Score → Score → Bool
  | .negInf, _ => true
  | _, .posInf => true
  | .val a, .val b => a ≤ b
  | .posInf, .negInf => false
  | .posInf, .val _ => false
  | .val _, .negInf => false

instance : LinearOrder Score where
  le a b := Score.ble a b = true
  le_refl a := by cases a <;> simp [Score.ble]
  le_trans a b c := by
    cases a <;> cases b <;> cases c <;> simp [Score.ble] <;> omega
  le_antisymm a b := by
    cases a <;> cases b <;> simp [Score.ble] <;> omega
  le_total a b := by
    cases a <;> cases b <;> simp [Score.ble] <;> omega
  decidableLE a b := inferInstanceAs (Decidable (_ = true))
  lt_iff_le_not_le a b := Iff.rfl

instance (a b : Score) : Decidable (a ≤ b) :=
  inferInstanceAs (Decidable (Score.ble a b = true))

instance (a b : Score) : Decidable (a < b) :=
  inferInstanceAs (Decidable (a ≤ b ∧ ¬ b ≤ a))

/-- The trial board built before each recursive call:
`const testBoard = this.copyBoard(board); this.makeTestMove(testBoard, move.row, move.col, p, game);`. -/
def childBoard (b : Board) (m : Move) (p : Nat) : Board :=
  makeTestMove (copyBoard b) m.row m.col p

/-- The maximizing branch loop of `OthelloAI.minimax`: for each move, recurse
on the trial board, update `maxScore` and `alpha`, and break out of the loop
as soon as `beta <= alpha`.  `recur tb a bb` stands for the recursive call
`this.minimax(tb, depth - 1, false, a, bb, player, game)`. -/
def abMaxLoop (recur : Board → Score → Score → Score) (b : Board) (cp : Nat) :
    List Move → Score → Score → Score → Score
  | [], _, _, maxScore => maxScore
  | m :: rest, alpha, beta, maxScore =>
    let score := recur (childBoard b m cp) alpha beta
    let maxScore2 := max maxScore score
    let alpha2 := max alpha score
    if beta ≤ alpha2 then maxScore2
    else abMaxLoop recur b cp rest alpha2 beta maxScore2

/-- The minimizing branch loop of `OthelloAI.minimax`, dual to `abMaxLoop`. -/
def abMinLoop (recur : Board → Score → Score → Score) (b : Board) (cp : Nat) :
    List Move → Score → Score → Score → Score
  | [], _, _, minScore => minScore
  | m :: rest, alpha, beta, minScore =>
    let score := recur (childBoard b m cp) alpha beta
    let minScore2 := min minScore score
    let beta2 := min beta score
    if beta2 ≤ alpha then minScore2
    else abMinLoop recur b cp rest alpha beta2 minScore2

/-- Embedding of `OthelloAI.minimax(board, depth, maximizing, alpha, beta, player, game)`.
Note the no-moves branch: the JS computes
`const opponent = player === this.WHITE ? this.BLACK : this.WHITE;` — the
opponent of the fixed root `player`, not of `currentPlayer`. -/
def minimax (b : Board) : Nat → Bool → Score → Score → Nat → Score
  | 0, _, _, _, player => Score.val (evaluateBoard b player)
  | depth + 1, maximizing, alpha, beta, player =>
    let currentPlayer := if maximizing then player else oppAI player
    let validMoves := aiGetValidMovesForBoard b currentPlayer
    if validMoves.length = 0 then
      let opponent := oppAI player
      let opponentMoves := aiGetValidMovesForBoard b opponent
      if opponentMoves.length = 0 then Score.val (evaluateBoard b player)
      else minimax b depth (!maximizing) alpha beta player
    else if maximizing then
      abMaxLoop (fun tb a bb => minimax tb depth false a bb player)
        b currentPlayer validMoves alpha beta Score.negInf
    else
      abMinLoop (fun tb a bb => minimax tb depth true a bb player)
        b currentPlayer validMoves alpha beta Score.posInf

/-- The root loop of `OthelloAI.selectMinimaxMove`: evaluate each root move
with the minimax search, keep the first strictly better move
(`if (score > bestScore)`), and raise `alpha` to the best score seen.
Returned as the pair `(bestMove, bestScore)`. -/
def selectMinimaxLoop (b : Board) (player : Nat) :
    List Move → Score → Score → Option Move → Score → Option Move × Score
  | [], _, _, bestMove, bestScore => (bestMove, bestScore)
  | m :: rest, alpha, beta, bestMove, bestScore =>
    let score := minimax (childBoard b m player) 3 false alpha beta player
    let bestMove2 := if bestScore < score then some m else bestMove
    let bestScore2 := if bestScore < score then score else bestScore
    selectMinimaxLoop b player rest (max alpha score) beta bestMove2 bestScore2

/-- Embedding of `OthelloAI.selectMinimaxMove(board, player, game)` together with its
final `bestScore` (`this.maxDepth = 4`, so each root child is searched at
depth `3`; the root enumerates `game.getValidMoves(player)` on the aliased
game board). -/
def selectMinimaxPair (b : Board) (player : Nat) : Option Move × Score :=
  selectMinimaxLoop b player (gameGetValidMoves b player)
    Score.negInf Score.posInf none Score.negInf

/-- Modelled from the spec: the full-width value of the same game tree with
no alpha-beta cutoffs — every node folds over all of its children in the same
row-major order, with the identical terminal, pass and leaf treatment. -/
def minimaxFull (b : Board) : Nat → Bool → Nat → Score
  | 0, _, player => Score.val (evaluateBoard b player)
  | depth + 1, maximizing, player =>
    let currentPlayer := if maximizing then player else oppAI player
    let validMoves := aiGetValidMovesForBoard b currentPlayer
    if validMoves.length = 0 then
      let opponent := oppAI player
      let opponentMoves := aiGetValidMovesForBoard b opponent
      if opponentMoves.length = 0 then Score.val (evaluateBoard b player)
      else minimaxFull b depth (!maximizing) player
    else if maximizing then
      validMoves.foldl
        (fun acc m => max acc (minimaxFull (childBoard b m currentPlayer) depth false player))
        Score.negInf
    else
      validMoves.foldl
        (fun acc m => min acc (minimaxFull (childBoard b m currentPlayer) depth true player))
        Score.posInf

/-- Modelled from the spec: the root selection over the full-width values,
first-seen-wins on the strictly-greater comparison, same move order. -/
def selectFullLoop (b : Board) (player : Nat) :
    List Move → Option Move → Score → Option Move × Score
  | [], bestMove, bestScore => (bestMove, bestScore)
  | m :: rest, bestMove, bestScore =>
    let score := minimaxFull (childBoard b m player) 3 false player
    let bestMove2 := if bestScore < score then some m else bestMove
    let bestScore2 := if bestScore < score then score else bestScore
    selectFullLoop b player rest bestMove2 bestScore2

/-- Modelled from the spec: Tier 3 selection with the cutoffs disabled. -/
def selectFullPair (b : Board) (player : Nat) : Option Move × Score :=
  selectFullLoop b player (gameGetValidMoves b player) none Score.negInf

/-- Concrete position used to exercise the no-moves branch of `minimax` at a
minimizing node: White owns the corner, Black owns the single disc next to
it, so Black (to move at a minimizing node for root White) has no legal move
while White can still play at `(0, 2)`. -/
def passBoard : Board :=
  [[2, 1, 0, 0, 0, 0, 0, 0],
   [0, 0, 0, 0, 0, 0, 0, 0],
   [0, 0, 0, 0, 0, 0, 0, 0],
   [0, 0, 0, 0, 0, 0, 0, 0],
   [0, 0, 0, 0, 0, 0, 0, 0],
   [0, 0, 0, 0, 0, 0, 0, 0],
   [0, 0, 0, 0, 0, 0, 0, 0],
   [0, 0, 0, 0, 0, 0, 0, 0]]

/-- A board whose cell `(0, 0)` is occupied (by Black) and for which the
AI's `getFlips` still reports a flippable run through `(0, 1)`. -/
def occBoard : Board :=
  [[1, 2, 1, 0, 0, 0, 0, 0],
   [0, 0, 0, 0, 0, 0, 0, 0],
   [0, 0, 0, 0, 0, 0, 0, 0],
   [0, 0, 0, 0, 0, 0, 0, 0],
   [0, 0, 0, 0, 0, 0, 0, 0],
   [0, 0, 0, 0, 0, 0, 0, 0],
   [0, 0, 0, 0, 0, 0, 0, 0],
   [0, 0, 0, 0, 0, 0, 0, 0]]

/-- Row-major comparison of emitted moves. -/
def rowMajorLt (m1 m2 : Move) : Prop := m1.row * 8 + m1.col < m2.row * 8 + m2.col

/-- The four centre cells holding the initial discs. -/
def centerCluster : List (Nat × Nat) := [(3, 3), (3, 4), (4, 3), (4, 4)]

/-- C6 witness: the pruning-correctness theorem applied to White on
`passBoard`, where White has the single legal move `(0, 2)`. -/
example : gameGetValidMoves initialBoard BLACK =
    [⟨2, 3, 1⟩, ⟨3, 2, 1⟩, ⟨4, 5, 1⟩, ⟨5, 4, 1⟩] := by decide

example : WF initialBoard := by decide

example : countStones initialBoard = (2, 2) := by decide

example : evaluateBoard initialBoard BLACK = 0 := by decide

example : max (Score.val 3) Score.negInf = Score.val 3 := by decide

example : aiGetValidMovesForBoard passBoard BLACK = [] := by decide

example : aiGetValidMovesForBoard passBoard WHITE = [⟨0, 2, 1⟩] := by decide

example : minimax passBoard 2 false Score.negInf Score.posInf WHITE = Score.val 225 := by decide

example : minimax passBoard 1 true Score.negInf Score.posInf WHITE = Score.val 190 := by decide

/-- Swapping the two sides in the positional/counting fold of
`evaluateBoard` negates the accumulated score and exchanges the two stone
counters. -/
theorem evalFold_swap (b : Board) (l : List (Nat × Nat)) :
    ∀ (s : Int) (p o : Nat),
      l.foldl (fun acc q =>
        if getCell b q.1 q.2 = 2 then (acc.1 + weightAt q, acc.2.1 + 1, acc.2.2)
        else if getCell b q.1 q.2 = 1 then (acc.1 - weightAt q, acc.2.1, acc.2.2 + 1)
        else acc) (-s, o, p) =
      (-(l.foldl (fun acc q =>
        if getCell b q.1 q.2 = 1 then (acc.1 + weightAt q, acc.2.1 + 1, acc.2.2)
        else if getCell b q.1 q.2 = 2 then (acc.1 - weightAt q, acc.2.1, acc.2.2 + 1)
        else acc) (s, p, o)).1,
       (l.foldl (fun acc q =>
        if getCell b q.1 q.2 = 1 then (acc.1 + weightAt q, acc.2.1 + 1, acc.2.2)
        else if getCell b q.1 q.2 = 2 then (acc.1 - weightAt q, acc.2.1, acc.2.2 + 1)
        else acc) (s, p, o)).2.2,
       (l.foldl (fun acc q =>
        if getCell b q.1 q.2 = 1 then (acc.1 + weightAt q, acc.2.1 + 1, acc.2.2)
        else if getCell b q.1 q.2 = 2 then (acc.1 - weightAt q, acc.2.1, acc.2.2 + 1)
        else acc) (s, p, o)).2.1) := by
  induction l with
  | nil => intro s p o; rfl
  | cons q rest ih =>
    intro s p o
    simp only [List.foldl_cons]
    by_cases h1 : getCell b q.1 q.2 = 1
    · have h2 : getCell b q.1 q.2 ≠ 2 := by omega
      simp only [h1, h2, if_true, if_false, if_neg (by omega : ¬(1 : Nat) = 2)]
      rw [show -s - weightAt q = -(s + weightAt q) from by ring]
      exact ih (s + weightAt q) (p + 1) o
    · by_cases h2 : getCell b q.1 q.2 = 2
      · simp only [h1, h2, if_true, if_false]
        rw [show -s + weightAt q = -(s - weightAt q) from by ring]
        exact ih (s - weightAt q) p (o + 1)
      · simp only [h1, h2, if_false]
        exact ih s p o

/-- Swapping the two sides in the corner fold of `evaluateBoard` negates the
accumulated score. -/
theorem cornerFold_swap (b : Board) (l : List (Nat × Nat)) :
    ∀ s : Int,
      l.foldl (fun s q =>
        if getCell b q.1 q.2 = 2 then s + 100
        else if getCell b q.1 q.2 = 1 then s - 100
        else s) (-s) =
      -(l.foldl (fun s q =>
        if getCell b q.1 q.2 = 1 then s + 100
        else if getCell b q.1 q.2 = 2 then s - 100
        else s) s) := by
  induction l with
  | nil => intro s; rfl
  | cons q rest ih =>
    intro s
    simp only [List.foldl_cons]
    by_cases h1 : getCell b q.1 q.2 = 1
    · have h2 : getCell b q.1 q.2 ≠ 2 := by omega
      simp only [h1, h2, if_true, if_false, if_neg (by omega : ¬(1 : Nat) = 2)]
      rw [show -s - 100 = -(s + 100) from by ring]
      exact ih (s + 100)
    · by_cases h2 : getCell b q.1 q.2 = 2
      · simp only [h1, h2, if_true, if_false]
        rw [show -s + 100 = -(s - 100) from by ring]
        exact ih (s - 100)
      · simp only [h1, h2, if_false]
        exact ih s

/-- Reading back the cell just written within a row. -/
theorem getD_set_self {α : Type} {l : List α} {n : Nat} {a d : α} (h : n < l.length) :
    (l.set n a).getD n d = a := by
  rw [List.getD_eq_getElem?_getD, List.getElem?_set_self h]
  rfl

/-- Reading a different index than the one written within a row. -/
theorem getD_set_ne {α : Type} {l : List α} {m n : Nat} {a d : α} (h : n ≠ m) :
    (l.set n a).getD m d = l.getD m d := by
  rw [List.getD_eq_getElem?_getD, List.getElem?_set_ne h, ← List.getD_eq_getElem?_getD]

/-- Reading back the cell just written by `setCell` on a well-formed board. -/
theorem getCell_setCell_self {b : Board} {r c v : Nat} (hWF : WF b)
    (hr : r < 8) (hc : c < 8) : getCell (setCell b r c v) r c = v := by
  unfold getCell setCell
  have hb : r < b.length := by rw [hWF.1]; exact hr
  rw [getD_set_self hb]
  have hrow : c < (b.getD r []).length := by rw [hWF.2 r hr]; exact hc
  exact getD_set_self hrow

/-- Writing with `setCell` leaves every other cell unchanged (no well-formedness needed). -/
theorem getCell_setCell_ne {b : Board} {r c v r' c' : Nat}
    (h : r' ≠ r ∨ c' ≠ c) : getCell (setCell b r c v) r' c' = getCell b r' c' := by
  unfold getCell setCell
  rcases h with h | h
  · rw [getD_set_ne (fun he => h he.symm)]
  · by_cases hlen : r < b.length
    · by_cases hrr : r' = r
      · subst hrr
        rw [getD_set_self hlen, getD_set_ne (fun he => h he.symm)]
      · rw [getD_set_ne (fun he => hrr he.symm)]
    · rw [List.set_eq_of_length_le (Nat.le_of_not_lt hlen)]

/-- Writing with `setCell` preserves well-formedness. -/
theorem WF_setCell {b : Board} {r c v : Nat} (hWF : WF b) (hr : r < 8) :
    WF (setCell b r c v) := by
  constructor
  · rw [setCell, List.length_set, hWF.1]
  · intro i hi
    unfold setCell
    by_cases hir : i = r
    · subst hir
      have hb : i < b.length := by rw [hWF.1]; exact hi
      rw [getD_set_self hb, List.length_set, hWF.2 i hi]
    · rw [getD_set_ne (fun he => hir he.symm)]
      exact hWF.2 i hi

/-- A pair of coordinates is a grid cell exactly when both are below 8. -/
theorem mem_allCells {q : Nat × Nat} : q ∈ allCells ↔ q.1 < 8 ∧ q.2 < 8 := by
  obtain ⟨r, c⟩ := q
  simp [allCells, List.mem_flatMap]

/-- The 64 grid cells are pairwise distinct. -/
theorem allCells_nodup : allCells.Nodup := by decide

/-- How a single `setCell` write moves the cell counts, in indicator form. -/
theorem cnt_setCell {b : Board} {r c v : Nat} (hWF : WF b) (hr : r < 8) (hc : c < 8)
    (w : Nat) :
    cnt (setCell b r c v) w + (if getCell b r c = w then 1 else 0) =
      cnt b w + (if v = w then 1 else 0) := by
  unfold cnt
  have hmem : (r, c) ∈ allCells := mem_allCells.mpr ⟨hr, hc⟩
  obtain ⟨L1, L2, hsplit⟩ := List.append_of_mem hmem
  have hnd := allCells_nodup
  rw [hsplit] at hnd ⊢
  rw [List.nodup_append] at hnd
  obtain ⟨hnd1, hnd2, hdisj⟩ := hnd
  have hnotL1 : (r, c) ∉ L1 := fun hx => hdisj hx (List.mem_cons_self _ _)
  have hnotL2 : (r, c) ∉ L2 := (List.nodup_cons.mp hnd2).1
  have hL1 : ∀ x ∈ L1,
      (decide (getCell (setCell b r c v) x.1 x.2 = w)) =
        (decide (getCell b x.1 x.2 = w)) := by
    intro x hx
    have hxne : x.1 ≠ r ∨ x.2 ≠ c := by
      by_contra hcon
      push_neg at hcon
      exact hnotL1 (by
        have : x = (r, c) := Prod.ext_iff.mpr ⟨hcon.1, hcon.2⟩
        rwa [this] at hx)
    rw [getCell_setCell_ne hxne]
  have hL2 : ∀ x ∈ L2,
      (decide (getCell (setCell b r c v) x.1 x.2 = w)) =
        (decide (getCell b x.1 x.2 = w)) := by
    intro x hx
    have hxne : x.1 ≠ r ∨ x.2 ≠ c := by
      by_contra hcon
      push_neg at hcon
      exact hnotL2 (by
        have : x = (r, c) := Prod.ext_iff.mpr ⟨hcon.1, hcon.2⟩
        rwa [this] at hx)
    rw [getCell_setCell_ne hxne]
  have e1 : List.countP (fun q => decide (getCell (setCell b r c v) q.1 q.2 = w)) L1 =
      List.countP (fun q => decide (getCell b q.1 q.2 = w)) L1 :=
    List.countP_congr (fun x hx => by rw [hL1 x hx])
  have e2 : List.countP (fun q => decide (getCell (setCell b r c v) q.1 q.2 = w)) L2 =
      List.countP (fun q => decide (getCell b q.1 q.2 = w)) L2 :=
    List.countP_congr (fun x hx => by rw [hL2 x hx])
  rw [List.countP_append, List.countP_append, List.countP_cons, List.countP_cons, e1, e2,
      getCell_setCell_self hWF hr hc]
  simp only [decide_eq_true_eq]
  split_ifs <;> omega

/-- Counting with `countStones` computes exactly the two cell counts. -/
theorem countStones_eq (b : Board) : countStones b = (cnt b BLACK, cnt b WHITE) := by
  have key : ∀ (l : List (Nat × Nat)) (a1 a2 : Nat),
      l.foldl (fun acc q =>
        if getCell b q.1 q.2 = BLACK then (acc.1 + 1, acc.2)
        else if getCell b q.1 q.2 = WHITE then (acc.1, acc.2 + 1)
        else acc) (a1, a2) =
      (a1 + l.countP (fun q => decide (getCell b q.1 q.2 = BLACK)),
       a2 + l.countP (fun q => decide (getCell b q.1 q.2 = WHITE))) := by
    intro l
    induction l with
    | nil => intro a1 a2; simp
    | cons q rest ih =>
      intro a1 a2
      simp only [List.foldl_cons, List.countP_cons, BLACK, WHITE] at ih ⊢
      by_cases h1 : getCell b q.1 q.2 = 1
      · have h2 : getCell b q.1 q.2 ≠ 2 := by omega
        simp only [h1, h2, if_true, if_false, if_neg (by omega : ¬(1 : Nat) = 2)]
        rw [ih]
        simp [Prod.ext_iff]
        omega
      · by_cases h2 : getCell b q.1 q.2 = 2
        · simp only [h1, h2, if_true, if_false]
          rw [ih]
          simp [h1, Prod.ext_iff]
          omega
        · simp only [h1, h2, if_false]
          rw [ih]
          simp [h1, h2]
  rw [countStones, key, cnt, cnt]
  simp

/-- Every cell collected by the scan loop lies on the scanned ray, is in
bounds, and holds an opponent disc. -/
theorem mem_scanRun (b : Board) (opp : Nat) :
    ∀ (fuel : Nat) (dr dc r c : Int) (q : Int × Int),
      q ∈ (scanRun b opp fuel dr dc r c).1 →
      (∃ j : Nat, q.1 = r + j * dr ∧ q.2 = c + j * dc) ∧
        isValidPosition q.1 q.2 = true ∧ getCellI b q.1 q.2 = opp := by
  intro fuel
  induction fuel with
  | zero => intro dr dc r c q hq; simp [scanRun] at hq
  | succ n ih =>
    intro dr dc r c q hq
    rw [scanRun] at hq
    split_ifs at hq with hcond
    · rcases List.mem_cons.mp hq with hq | hq
      · subst hq
        exact ⟨⟨0, by push_cast; ring, by push_cast; ring⟩, by simpa using hcond.1, hcond.2⟩
      · obtain ⟨⟨j, hj1, hj2⟩, hval, hcell⟩ := ih dr dc (r + dr) (c + dc) q hq
        refine ⟨⟨j + 1, ?_, ?_⟩, hval, hcell⟩
        · rw [hj1]; push_cast; ring
        · rw [hj2]; push_cast; ring
    · simp at hq

/-- The scan loop never collects the same cell twice. -/
theorem nodup_scanRun (b : Board) (opp : Nat) (dr dc : Int)
    (hd : ¬(dr = 0 ∧ dc = 0)) :
    ∀ (fuel : Nat) (r c : Int), (scanRun b opp fuel dr dc r c).1.Nodup := by
  intro fuel
  induction fuel with
  | zero => intro r c; simp [scanRun]
  | succ n ih =>
    intro r c
    rw [scanRun]
    split_ifs with hcond
    · refine List.nodup_cons.mpr ⟨?_, ih (r + dr) (c + dc)⟩
      intro hmem
      obtain ⟨⟨j, hj1, hj2⟩, _, _⟩ := mem_scanRun b opp n dr dc (r + dr) (c + dc) (r, c) hmem
      simp only at hj1 hj2
      have h1 : ((j : Int) + 1) * dr = 0 := by linarith
      have h2 : ((j : Int) + 1) * dc = 0 := by linarith
      have hj : ((j : Int) + 1) ≠ 0 := by positivity
      exact hd ⟨by exact (mul_eq_zero.mp h1).resolve_left hj,
        by exact (mul_eq_zero.mp h2).resolve_left hj⟩
    · simp

/-- Every cell reported for one direction lies on that direction's ray at a
positive offset from the origin, is in bounds, and holds an opponent disc. -/
theorem mem_dirFlips {b : Board} {player opp row col : Nat} {d : Int × Int}
    {q : Int × Int} (hmem : q ∈ dirFlips b player opp row col d) :
    (∃ k : Nat, 1 ≤ k ∧ q.1 = (row : Int) + k * d.1 ∧ q.2 = (col : Int) + k * d.2) ∧
      isValidPosition q.1 q.2 = true ∧ getCellI b q.1 q.2 = opp := by
  simp only [dirFlips] at hmem
  split_ifs at hmem with hcond
  · obtain ⟨⟨j, hj1, hj2⟩, hval, hcell⟩ :=
      mem_scanRun b opp 16 d.1 d.2 ((row : Int) + d.1) ((col : Int) + d.2) q hmem
    refine ⟨⟨j + 1, by omega, ?_, ?_⟩, hval, hcell⟩
    · rw [hj1]; push_cast; ring
    · rw [hj2]; push_cast; ring
  · simp at hmem

/-- Each direction's flip run has no duplicates. -/
theorem nodup_dirFlips (b : Board) (player opp row col : Nat) (d : Int × Int)
    (hd : ¬(d.1 = 0 ∧ d.2 = 0)) : (dirFlips b player opp row col d).Nodup := by
  simp only [dirFlips]
  split_ifs
  · exact nodup_scanRun b opp d.1 d.2 hd 16 _ _
  · simp

/-- Rays cast from one origin in two different compass directions never meet
again at a positive offset. -/
theorem directions_rays_disjoint :
    ∀ d1 ∈ directions, ∀ d2 ∈ directions, d1 ≠ d2 →
      ∀ (k1 k2 : Nat), 1 ≤ k1 → 1 ≤ k2 →
        ¬((k1 : Int) * d1.1 = (k2 : Int) * d2.1 ∧
          (k1 : Int) * d1.2 = (k2 : Int) * d2.2) := by
  intro d1 h1 d2 h2 hne k1 k2 hk1 hk2 hcon
  obtain ⟨ha, hb⟩ := hcon
  simp only [directions, List.mem_cons, List.mem_singleton, List.mem_nil_iff,
    or_false] at h1 h2
  rcases h1 with h1 | h1 | h1 | h1 | h1 | h1 | h1 | h1 <;>
    rcases h2 with h2 | h2 | h2 | h2 | h2 | h2 | h2 | h2 <;>
      subst h1 <;> subst h2 <;>
        first
          | exact hne rfl
          | (simp only [mul_zero, mul_one, mul_neg, mul_neg_one] at ha hb; omega)

/-- The eight compass directions are nonzero vectors. -/
theorem directions_ne_zero : ∀ d ∈ directions, ¬(d.1 = 0 ∧ d.2 = 0) := by decide

/-- The complete flip list for a placement has no duplicate cells. -/
theorem nodup_flipsCore (b : Board) (player opp row col : Nat) :
    (flipsCore b player opp row col).Nodup := by
  unfold flipsCore
  rw [List.nodup_flatMap]
  refine ⟨fun d hd => nodup_dirFlips b player opp row col d (directions_ne_zero d hd), ?_⟩
  have hnd : directions.Nodup := by decide
  refine hnd.imp_of_mem ?_
  intro d1 d2 hd1 hd2 hne
  intro x hx1 hx2
  obtain ⟨⟨k1, hk1, hx11, hx12⟩, _, _⟩ := mem_dirFlips hx1
  obtain ⟨⟨k2, hk2, hx21, hx22⟩, _, _⟩ := mem_dirFlips hx2
  refine directions_rays_disjoint d1 hd1 d2 hd2 hne k1 k2 hk1 hk2 ⟨?_, ?_⟩
  · linarith [hx11, hx21]
  · linarith [hx12, hx22]

/-- Unfolding of the in-bounds test. -/
theorem isValidPosition_iff {r c : Int} :
    isValidPosition r c = true ↔ 0 ≤ r ∧ r < 8 ∧ 0 ≤ c ∧ c < 8 := by
  simp [isValidPosition, and_assoc]

/-- Flipping a list of pairwise-distinct in-bounds opponent cells to `p`
raises the count of `p` cells by the list length, lowers the count of
opponent cells by the same amount, and preserves well-formedness. -/
theorem cnt_foldl_flips (p opp : Nat) (hne : opp ≠ p) :
    ∀ (F : List (Int × Int)) (bd : Board), WF bd → F.Nodup →
      (∀ q ∈ F, isValidPosition q.1 q.2 = true ∧ getCellI bd q.1 q.2 = opp) →
      WF (F.foldl (fun bd q => setCell bd q.1.toNat q.2.toNat p) bd) ∧
      cnt (F.foldl (fun bd q => setCell bd q.1.toNat q.2.toNat p) bd) p
        = cnt bd p + F.length ∧
      cnt (F.foldl (fun bd q => setCell bd q.1.toNat q.2.toNat p) bd) opp + F.length
        = cnt bd opp := by
  intro F
  induction F with
  | nil => intro bd hWF _ _; exact ⟨hWF, by simp, by simp⟩
  | cons q0 F ih =>
    intro bd hWF hnodup hmem
    obtain ⟨hval0, hcell0⟩ := hmem q0 (List.mem_cons_self _ _)
    obtain ⟨h0a, h0b, h0c, h0d⟩ := isValidPosition_iff.mp hval0
    have hr : q0.1.toNat < 8 := by omega
    have hc : q0.2.toNat < 8 := by omega
    have hWF1 : WF (setCell bd q0.1.toNat q0.2.toNat p) := WF_setCell hWF hr
    have hcntp := @cnt_setCell bd q0.1.toNat q0.2.toNat p hWF hr hc p
    have hcnto := @cnt_setCell bd q0.1.toNat q0.2.toNat p hWF hr hc opp
    rw [show getCell bd q0.1.toNat q0.2.toNat = opp from hcell0] at hcntp hcnto
    rw [if_neg hne, if_pos rfl] at hcntp
    rw [if_pos rfl, if_neg (fun h => hne h.symm)] at hcnto
    have hmem1 : ∀ q ∈ F, isValidPosition q.1 q.2 = true ∧
        getCellI (setCell bd q0.1.toNat q0.2.toNat p) q.1 q.2 = opp := by
      intro q hq
      obtain ⟨hvq, hcq⟩ := hmem q (List.mem_cons_of_mem _ hq)
      obtain ⟨ha, hb2, hc2, hd2⟩ := isValidPosition_iff.mp hvq
      have hqne : q ≠ q0 := by
        intro h
        exact (List.nodup_cons.mp hnodup).1 (h ▸ hq)
      have hne2 : ¬(q.1 = q0.1 ∧ q.2 = q0.2) := by
        intro h
        exact hqne (Prod.ext_iff.mpr h)
      refine ⟨hvq, ?_⟩
      unfold getCellI at hcq ⊢
      rw [getCell_setCell_ne (by omega)]
      exact hcq
    obtain ⟨hWF2, hp2, ho2⟩ :=
      ih (setCell bd q0.1.toNat q0.2.toNat p) hWF1 (List.nodup_cons.mp hnodup).2 hmem1
    refine ⟨by simpa using hWF2, ?_, ?_⟩
    · simp only [List.foldl_cons, List.length_cons]
      omega
    · simp only [List.foldl_cons, List.length_cons]
      omega

/-- A fold of cell writes away from `(r, c)` does not change the cell at
`(r, c)`. -/
theorem getCell_foldl_ne (p : Nat) :
    ∀ (F : List (Int × Int)) (bd : Board) (r c : Nat),
      (∀ q ∈ F, r ≠ q.1.toNat ∨ c ≠ q.2.toNat) →
      getCell (F.foldl (fun bd q => setCell bd q.1.toNat q.2.toNat p) bd) r c =
        getCell bd r c := by
  intro F
  induction F with
  | nil => intro bd r c _; rfl
  | cons q0 F ih =>
    intro bd r c hmem
    simp only [List.foldl_cons]
    rw [ih _ r c (fun q hq => hmem q (List.mem_cons_of_mem _ hq))]
    exact getCell_setCell_ne (hmem q0 (List.mem_cons_self _ _))

/-- After folding cell writes of the value `p` over a duplicate-free list of
in-bounds cells, every cell of the list holds `p`. -/
theorem getCell_foldl_mem (p : Nat) :
    ∀ (F : List (Int × Int)) (bd : Board), WF bd → F.Nodup →
      (∀ q ∈ F, isValidPosition q.1 q.2 = true) →
      ∀ q ∈ F,
        getCellI (F.foldl (fun bd q => setCell bd q.1.toNat q.2.toNat p) bd)
          q.1 q.2 = p := by
  intro F
  induction F with
  | nil => intro bd _ _ _ q hq; simp at hq
  | cons q0 F ih =>
    intro bd hWF hnodup hval q hq
    obtain ⟨h0a, h0b, h0c, h0d⟩ :=
      isValidPosition_iff.mp (hval q0 (List.mem_cons_self _ _))
    have hr : q0.1.toNat < 8 := by omega
    have hc : q0.2.toNat < 8 := by omega
    have hWF1 : WF (setCell bd q0.1.toNat q0.2.toNat p) := WF_setCell hWF hr
    simp only [List.foldl_cons]
    rcases List.mem_cons.mp hq with hq0 | hqF
    · subst hq0
      unfold getCellI
      rw [getCell_foldl_ne]
      · exact getCell_setCell_self hWF hr hc
      · intro x hx
        obtain ⟨hxa, hxb, hxc, hxd⟩ :=
          isValidPosition_iff.mp (hval x (List.mem_cons_of_mem _ hx))
        have hxq : x ≠ q := fun h => (List.nodup_cons.mp hnodup).1 (h ▸ hx)
        have hne2 : ¬(x.1 = q.1 ∧ x.2 = q.2) := fun h => hxq (Prod.ext_iff.mpr h)
        omega
    · exact ih (setCell bd q0.1.toNat q0.2.toNat p) hWF1
        (List.nodup_cons.mp hnodup).2
        (fun x hx => hval x (List.mem_cons_of_mem _ hx)) q hqF

/-- Cells reported by the game's flip routine are in bounds and hold the
opponent's colour. -/
theorem mem_gameGetFlips {b : Board} {row col player : Nat} {q : Int × Int}
    (hempty : getCell b row col = EMPTY)
    (hq : q ∈ gameGetFlips b row col player) :
    isValidPosition q.1 q.2 = true ∧ getCellI b q.1 q.2 = oppGame player := by
  rw [gameGetFlips, if_neg (by simp [hempty])] at hq
  simp only [flipsCore, List.mem_flatMap] at hq
  obtain ⟨d, _, hmem⟩ := hq
  exact (mem_dirFlips hmem).2

/-- The game's flip list never repeats a cell. -/
theorem nodup_gameGetFlips (b : Board) (row col player : Nat) :
    (gameGetFlips b row col player).Nodup := by
  rw [gameGetFlips]
  split_ifs
  · simp
  · exact nodup_flipsCore b player (oppGame player) row col

/-- On a legal move, `makeMove` answers `true` and the board becomes the fold
of the flip writes over the placement write. -/
theorem makeMove_legal_eq (b : Board) (row col player : Nat)
    (hempty : getCell b row col = EMPTY)
    (hflips : gameGetFlips b row col player ≠ []) :
    makeMove b row col player =
      (true, (gameGetFlips b row col player).foldl
        (fun bd q => setCell bd q.1.toNat q.2.toNat player)
        (setCell b row col player)) := by
  rw [makeMove, if_neg (by simp [hempty])]
  simp only [List.length_eq_zero, if_neg hflips]

/-- C2 (amended): a legal `makeMove` raises the total disc count by exactly
one, raises the moving side's count by exactly `1 + flips.length`, and lowers
the opponent's count by exactly `flips.length`. -/
theorem makeMove_disc_counts (b : Board) (row col player : Nat) (hWF : WF b)
    (hrow : row < 8) (hcol : col < 8)
    (hp : player = BLACK ∨ player = WHITE)
    (hempty : getCell b row col = EMPTY)
    (hflips : gameGetFlips b row col player ≠ []) :
    (countStones (makeMove b row col player).2).1 +
        (countStones (makeMove b row col player).2).2
      = (countStones b).1 + (countStones b).2 + 1 ∧
    (player = BLACK →
      (countStones (makeMove b row col player).2).1
        = (countStones b).1 + (1 + (gameGetFlips b row col player).length) ∧
      (countStones (makeMove b row col player).2).2 +
          (gameGetFlips b row col player).length = (countStones b).2) ∧
    (player = WHITE →
      (countStones (makeMove b row col player).2).2
        = (countStones b).2 + (1 + (gameGetFlips b row col player).length) ∧
      (countStones (makeMove b row col player).2).1 +
          (gameGetFlips b row col player).length = (countStones b).1) := by
  have hpe : player ≠ EMPTY := by
    rcases hp with h | h <;> simp [h, BLACK, WHITE, EMPTY]
  have hoppne : oppGame player ≠ player := by
    rcases hp with h | h <;> simp [h, oppGame, BLACK, WHITE]
  have hoppe : oppGame player ≠ EMPTY := by
    rcases hp with h | h <;> simp [h, oppGame, BLACK, WHITE, EMPTY]
  have hb1 : WF (setCell b row col player) := WF_setCell hWF hrow
  have hcntp := @cnt_setCell b row col player hWF hrow hcol player
  have hcnto := @cnt_setCell b row col player hWF hrow hcol (oppGame player)
  rw [hempty, if_neg (fun h => hpe h.symm), if_pos rfl] at hcntp
  rw [hempty, if_neg (fun h => hoppe h.symm),
    if_neg (fun h => hoppne h.symm)] at hcnto
  have hmem1 : ∀ q ∈ gameGetFlips b row col player,
      isValidPosition q.1 q.2 = true ∧
        getCellI (setCell b row col player) q.1 q.2 = oppGame player := by
    intro q hq
    obtain ⟨hvq, hcq⟩ := mem_gameGetFlips hempty hq
    refine ⟨hvq, ?_⟩
    have hne2 : ¬(q.1.toNat = row ∧ q.2.toNat = col) := by
      intro h
      apply hoppe
      rw [← hcq]
      unfold getCellI
      rw [h.1, h.2, hempty]
    unfold getCellI at hcq ⊢
    rw [getCell_setCell_ne (by omega)]
    exact hcq
  obtain ⟨hWF2, hp2, ho2⟩ := cnt_foldl_flips player (oppGame player) hoppne
    (gameGetFlips b row col player) (setCell b row col player) hb1
    (nodup_gameGetFlips b row col player) hmem1
  rw [makeMove_legal_eq b row col player hempty hflips]
  rw [countStones_eq, countStones_eq]
  dsimp only
  rcases hp with hpv | hpv <;> subst hpv
  · have hogw : oppGame BLACK = WHITE := rfl
    rw [hogw] at hcnto ho2
    refine ⟨by omega, fun _ => ⟨by omega, by omega⟩, fun h => by simp [BLACK, WHITE] at h⟩
  · have hogb : oppGame WHITE = BLACK := rfl
    rw [hogb] at hcnto ho2
    refine ⟨by omega, fun h => by simp [BLACK, WHITE] at h, fun _ => ⟨by omega, by omega⟩⟩

/-- C2 counterexample: on the initial board, Black's legal move at `(2, 3)`
has flip count 1, yet the total disc count goes from 4 to 5 — an increase of
1, not of `1 + flipCount = 2` as the claim states. -/
theorem makeMove_total_growth_counterexample :
    getCell initialBoard 2 3 = EMPTY ∧
      (gameGetFlips initialBoard 2 3 BLACK).length = 1 ∧
      ¬((countStones (makeMove initialBoard 2 3 BLACK).2).1 +
          (countStones (makeMove initialBoard 2 3 BLACK).2).2 =
        (countStones initialBoard).1 + (countStones initialBoard).2 +
          (1 + (gameGetFlips initialBoard 2 3 BLACK).length)) := by decide

/-- C2 witness: the amended count theorem applied to the opening move of
Black at `(2, 3)`. -/
theorem makeMove_disc_counts_witness :
    (countStones (makeMove initialBoard 2 3 BLACK).2).1 +
        (countStones (makeMove initialBoard 2 3 BLACK).2).2
      = (countStones initialBoard).1 + (countStones initialBoard).2 + 1 ∧
    (BLACK = BLACK →
      (countStones (makeMove initialBoard 2 3 BLACK).2).1
        = (countStones initialBoard).1 + (1 + (gameGetFlips initialBoard 2 3 BLACK).length) ∧
      (countStones (makeMove initialBoard 2 3 BLACK).2).2 +
          (gameGetFlips initialBoard 2 3 BLACK).length = (countStones initialBoard).2) ∧
    (BLACK = WHITE →
      (countStones (makeMove initialBoard 2 3 BLACK).2).2
        = (countStones initialBoard).2 + (1 + (gameGetFlips initialBoard 2 3 BLACK).length) ∧
      (countStones (makeMove initialBoard 2 3 BLACK).2).1 +
          (gameGetFlips initialBoard 2 3 BLACK).length = (countStones initialBoard).1) :=
  makeMove_disc_counts initialBoard 2 3 BLACK (by decide) (by decide) (by decide)
    (Or.inl rfl) (by decide) (by decide)

/-- C3 counterexample: `makeMove` mutates the caller's board in place — after
Black's legal move at `(2, 3)` the array contents differ from the input (the
flipped cell `(3, 3)` went from White to Black), so the cells of the board
passed in do not retain their values. -/
theorem makeMove_mutation_counterexample :
    getCell initialBoard 2 3 = EMPTY ∧
      gameGetFlips initialBoard 2 3 BLACK ≠ [] ∧
      getCell initialBoard 3 3 = WHITE ∧
      getCell (makeMove initialBoard 2 3 BLACK).2 3 3 = BLACK ∧
      (makeMove initialBoard 2 3 BLACK).2 ≠ initialBoard := by decide

/-- C3 (amended): `makeMove` updates the caller's board in place.  On a
legal move it returns `true` and afterwards the array holds the mover's disc
at the placement cell and at every flipped cell, so the board passed in does
not retain its pre-call contents; on an illegal move — occupied target or
empty flip set — it returns `false` with the board unchanged.  (Value
semantics in the search is instead obtained by `copyBoard` before every
`makeTestMove` trial.) -/
theorem makeMove_writes_in_place (b : Board) (row col player : Nat) :
    (WF b → row < 8 → col < 8 → (player = BLACK ∨ player = WHITE) →
      getCell b row col = EMPTY → gameGetFlips b row col player ≠ [] →
      (makeMove b row col player).1 = true ∧
      getCell (makeMove b row col player).2 row col = player ∧
      (∀ q ∈ gameGetFlips b row col player,
        getCellI (makeMove b row col player).2 q.1 q.2 = player) ∧
      (makeMove b row col player).2 ≠ b) ∧
    ((getCell b row col ≠ EMPTY ∨ gameGetFlips b row col player = []) →
      makeMove b row col player = (false, b)) := by
  constructor
  · intro hWF hrow hcol hp hempty hflips
    have hpe : player ≠ EMPTY := by
      rcases hp with h | h <;> simp [h, BLACK, WHITE, EMPTY]
    have hoppe : oppGame player ≠ EMPTY := by
      rcases hp with h | h <;> simp [h, oppGame, BLACK, WHITE, EMPTY]
    rw [makeMove_legal_eq b row col player hempty hflips]
    dsimp only
    have hb1 : WF (setCell b row col player) := WF_setCell hWF hrow
    have hvalF : ∀ q ∈ gameGetFlips b row col player,
        isValidPosition q.1 q.2 = true :=
      fun q hq => (mem_gameGetFlips hempty hq).1
    have hcell : getCell ((gameGetFlips b row col player).foldl
        (fun bd q => setCell bd q.1.toNat q.2.toNat player)
        (setCell b row col player)) row col = player := by
      rw [getCell_foldl_ne]
      · exact getCell_setCell_self hWF hrow hcol
      · intro q hq
        obtain ⟨_, hcq⟩ := mem_gameGetFlips hempty hq
        have hne2 : ¬(q.1.toNat = row ∧ q.2.toNat = col) := by
          intro h
          apply hoppe
          rw [← hcq]
          unfold getCellI
          rw [h.1, h.2, hempty]
        omega
    refine ⟨rfl, hcell, ?_, fun heq => ?_⟩
    · exact getCell_foldl_mem player (gameGetFlips b row col player)
        (setCell b row col player) hb1 (nodup_gameGetFlips b row col player) hvalF
    · rw [heq, hempty] at hcell
      exact hpe hcell.symm
  · intro h
    rcases h with h | hf
    · simp [makeMove, h]
    · by_cases hocc : getCell b row col ≠ EMPTY
      · simp [makeMove, hocc]
      · simp [makeMove, hocc, hf]

/-- C3 witness: the in-place update theorem applied to the legal opening
move of Black at `(2, 3)` — placement and flipped cell both hold Black
afterwards — and to the illegal occupied target `(3, 3)`. -/
theorem makeMove_writes_in_place_witness :
    ((makeMove initialBoard 2 3 BLACK).1 = true ∧
      getCell (makeMove initialBoard 2 3 BLACK).2 2 3 = BLACK ∧
      (∀ q ∈ gameGetFlips initialBoard 2 3 BLACK,
        getCellI (makeMove initialBoard 2 3 BLACK).2 q.1 q.2 = BLACK) ∧
      (makeMove initialBoard 2 3 BLACK).2 ≠ initialBoard) ∧
    makeMove initialBoard 3 3 BLACK = (false, initialBoard) :=
  ⟨(makeMove_writes_in_place initialBoard 2 3 BLACK).1 (by decide) (by decide)
      (by decide) (Or.inl rfl) (by decide) (by decide),
   (makeMove_writes_in_place initialBoard 3 3 BLACK).2 (Or.inl (by decide))⟩

/-- Reduction of the AI opponent ternary at Black. -/
theorem oppAI_black : oppAI BLACK = WHITE := rfl

/-- Reduction of the AI opponent ternary at White. -/
theorem oppAI_white : oppAI WHITE = BLACK := rfl

/-- C5: the evaluation function is antisymmetric between the two sides on
every board. -/
theorem evaluateBoard_antisymm (b : Board) :
    evaluateBoard b BLACK = -evaluateBoard b WHITE := by
  have hswap := evalFold_swap b allCells 0 0 0
  rw [neg_zero] at hswap
  simp only [evaluateBoard, BLACK, WHITE, show oppAI 1 = 2 from rfl,
    show oppAI 2 = 1 from rfl]
  rw [hswap]
  generalize hfold : List.foldl (fun acc q =>
      if getCell b q.1 q.2 = 1 then (acc.1 + weightAt q, acc.2.1 + 1, acc.2.2)
      else if getCell b q.1 q.2 = 2 then (acc.1 - weightAt q, acc.2.1, acc.2.2 + 1)
      else acc) ((0 : Int), (0 : Nat), (0 : Nat)) allCells = t
  obtain ⟨s, p, o⟩ := t
  have hcorner := cornerFold_swap b [((0 : Nat), (0 : Nat)), (0, 7), (7, 0), (7, 7)]
  have hc2 : ∀ E : Int,
      List.foldl (fun s q =>
        if getCell b q.1 q.2 = 2 then s + 100
        else if getCell b q.1 q.2 = 1 then s - 100
        else s) E [((0 : Nat), (0 : Nat)), (0, 7), (7, 0), (7, 7)] =
      -(List.foldl (fun s q =>
        if getCell b q.1 q.2 = 1 then s + 100
        else if getCell b q.1 q.2 = 2 then s - 100
        else s) (-E) [((0 : Nat), (0 : Nat)), (0, 7), (7, 0), (7, 7)]) := by
    intro E
    have h := hcorner (-E)
    rw [neg_neg] at h
    rw [h]
  rw [hc2, neg_neg]
  congr 1
  rw [Nat.add_comm o p]
  split_ifs with hA hB
  · push_cast
    ring
  · push_cast
    ring
  · push_cast
    ring
  · push_cast
    ring

/-- C4 counterexample: as stated over both flip routines the claim is false —
`OthelloAI.getFlips` has no occupancy guard, so on the occupied cell
`(0, 0)` of `occBoard` it returns the non-empty flip list `[(0, 1)]`. -/
theorem aiGetFlips_occupied_nonempty :
    getCell occBoard 0 0 ≠ EMPTY ∧
      aiGetFlips occBoard 0 0 BLACK = [((0 : Int), (1 : Int))] := by decide

/-- C4 (amended): `OthelloGame.getFlips` returns the empty flip list whenever
the target cell is occupied; the AI-side routine has no such guard. -/
theorem gameGetFlips_occupied_empty (b : Board) (row col player : Nat)
    (h : getCell b row col ≠ EMPTY) : gameGetFlips b row col player = [] := by
  simp [gameGetFlips, h]

/-- C4 witness: the amended theorem applied to `occBoard` at `(0, 0)`. -/
theorem gameGetFlips_occupied_empty_witness :
    getCell occBoard 0 0 ≠ EMPTY ∧ gameGetFlips occBoard 0 0 BLACK = [] :=
  ⟨by decide, gameGetFlips_occupied_empty occBoard 0 0 BLACK (by decide)⟩

/-- C10: the two independent flip routines agree on every board, every
position and both sides whenever the target cell is empty (the AI routine
only lacks the game routine's occupancy guard, and the two opponent
ternaries agree on the two real sides). -/
theorem getFlips_agree (b : Board) (row col player : Nat)
    (hp : player = BLACK ∨ player = WHITE) (h : getCell b row col = EMPTY) :
    aiGetFlips b row col player = gameGetFlips b row col player := by
  rcases hp with hp | hp <;> subst hp <;>
    simp [aiGetFlips, gameGetFlips, oppAI, oppGame, h, BLACK, WHITE]

/-- C10 witness: the agreement theorem applied to the initial board at
`(2, 3)` for Black. -/
theorem getFlips_agree_witness :
    (BLACK = BLACK ∨ BLACK = WHITE) ∧ getCell initialBoard 2 3 = EMPTY ∧
      aiGetFlips initialBoard 2 3 BLACK = gameGetFlips initialBoard 2 3 BLACK :=
  ⟨Or.inl rfl, by decide, getFlips_agree initialBoard 2 3 BLACK (Or.inl rfl) (by decide)⟩

/-- C7: `makeMove` on an occupied target, or on an empty target with an empty
flip set, returns `false` (the IllegalMove outcome) and leaves the board
contents completely unchanged. -/
theorem makeMove_illegal (b : Board) (row col player : Nat)
    (h : getCell b row col ≠ EMPTY ∨
      (getCell b row col = EMPTY ∧ gameGetFlips b row col player = [])) :
    makeMove b row col player = (false, b) := by
  rcases h with h | ⟨h, hf⟩
  · simp [makeMove, h]
  · simp [makeMove, h, hf]

/-- C7 witness: `makeMove` applied at the occupied centre cell `(3, 3)` and
at the empty but flipless cell `(0, 0)` of the initial board. -/
theorem makeMove_illegal_witness :
    makeMove initialBoard 3 3 BLACK = (false, initialBoard) ∧
      makeMove initialBoard 0 0 BLACK = (false, initialBoard) :=
  ⟨makeMove_illegal initialBoard 3 3 BLACK (Or.inl (by decide)),
   makeMove_illegal initialBoard 0 0 BLACK (Or.inr ⟨by decide, by decide⟩)⟩

/-- Membership characterisation for the game-side move enumerator. -/
theorem mem_gameGetValidMoves {b : Board} {player : Nat} {m : Move}
    (hm : m ∈ gameGetValidMoves b player) :
    getCell b m.row m.col = EMPTY ∧ gameGetFlips b m.row m.col player ≠ [] ∧
      m.flips = (gameGetFlips b m.row m.col player).length := by
  simp only [gameGetValidMoves, List.mem_flatMap] at hm
  obtain ⟨q, _, hmem⟩ := hm
  split_ifs at hmem with h1 h2
  · simp only [List.mem_singleton] at hmem
    subst hmem
    exact ⟨h1, by simpa using List.length_pos.mp h2, rfl⟩
  · simp at hmem
  · simp at hmem

/-- Membership characterisation for the AI-side move enumerator. -/
theorem mem_aiGetValidMovesForBoard {b : Board} {player : Nat} {m : Move}
    (hm : m ∈ aiGetValidMovesForBoard b player) :
    getCell b m.row m.col = EMPTY ∧ aiGetFlips b m.row m.col player ≠ [] ∧
      m.flips = (aiGetFlips b m.row m.col player).length := by
  simp only [aiGetValidMovesForBoard, List.mem_flatMap] at hm
  obtain ⟨q, _, hmem⟩ := hm
  split_ifs at hmem with h1 h2
  · simp only [List.mem_singleton] at hmem
    subst hmem
    exact ⟨h1, by simpa using List.length_pos.mp h2, rfl⟩
  · simp at hmem
  · simp at hmem

/-- The 64 cells are enumerated in strictly increasing row-major order. -/
theorem allCells_pairwise :
    allCells.Pairwise (fun q1 q2 => q1.1 * 8 + q1.2 < q2.1 * 8 + q2.2) := by decide

/-- Membership in the per-cell emission of the move enumerators forces the
emitted move. -/
theorem mem_ite_ite {α : Type} {c : Prop} [Decidable c] {c2 : Prop} [Decidable c2]
    {m x : α} (h : x ∈ (if c then (if c2 then [m] else []) else ([] : List α))) :
    x = m := by
  split_ifs at h <;> simp_all

/-- The game-side enumerator emits moves in strictly increasing row-major
order. -/
theorem gameGetValidMoves_pairwise (b : Board) (player : Nat) :
    (gameGetValidMoves b player).Pairwise rowMajorLt := by
  simp only [gameGetValidMoves]
  refine List.pairwise_flatMap.2 ⟨fun q _ => ?_, ?_⟩
  · split_ifs <;> simp
  · refine allCells_pairwise.imp ?_
    intro q1 q2 hlt x hx y hy
    have hx2 := mem_ite_ite hx
    have hy2 := mem_ite_ite hy
    subst hx2
    subst hy2
    exact hlt

/-- The AI-side enumerator emits moves in strictly increasing row-major
order. -/
theorem aiGetValidMovesForBoard_pairwise (b : Board) (player : Nat) :
    (aiGetValidMovesForBoard b player).Pairwise rowMajorLt := by
  simp only [aiGetValidMovesForBoard]
  refine List.pairwise_flatMap.2 ⟨fun q _ => ?_, ?_⟩
  · split_ifs <;> simp
  · refine allCells_pairwise.imp ?_
    intro q1 q2 hlt x hx y hy
    have hx2 := mem_ite_ite hx
    have hy2 := mem_ite_ite hy
    subst hx2
    subst hy2
    exact hlt

/-- C8: every move emitted by either enumerator targets an empty cell whose
flip set (as computed by that module's own flip routine) is non-empty and has
exactly `flips` elements, and both enumerations are in strictly increasing
row-major order of positions. -/
theorem getValidMoves_legality (b : Board) (player : Nat) :
    (∀ m ∈ gameGetValidMoves b player,
        getCell b m.row m.col = EMPTY ∧ gameGetFlips b m.row m.col player ≠ [] ∧
          m.flips = (gameGetFlips b m.row m.col player).length) ∧
    (∀ m ∈ aiGetValidMovesForBoard b player,
        getCell b m.row m.col = EMPTY ∧ aiGetFlips b m.row m.col player ≠ [] ∧
          m.flips = (aiGetFlips b m.row m.col player).length) ∧
    (gameGetValidMoves b player).Pairwise rowMajorLt ∧
    (aiGetValidMovesForBoard b player).Pairwise rowMajorLt :=
  ⟨fun _ hm => mem_gameGetValidMoves hm,
   fun _ hm => mem_aiGetValidMovesForBoard hm,
   gameGetValidMoves_pairwise b player,
   aiGetValidMovesForBoard_pairwise b player⟩

/-- C9: on the initial layout, Black has exactly the four canonical opening
moves, each flipping exactly one disc and each diagonally adjacent to one of
the four centre discs. -/
theorem initial_valid_moves_black :
    gameGetValidMoves initialBoard BLACK = [⟨2, 3, 1⟩, ⟨3, 2, 1⟩, ⟨4, 5, 1⟩, ⟨5, 4, 1⟩] ∧
      (gameGetValidMoves initialBoard BLACK).length = 4 ∧
      ∀ m ∈ gameGetValidMoves initialBoard BLACK, m.flips = 1 ∧
        centerCluster.any (fun q =>
          ((q.1 : Int) - (m.row : Int)) * ((q.1 : Int) - (m.row : Int)) = 1 ∧
          ((q.2 : Int) - (m.col : Int)) * ((q.2 : Int) - (m.col : Int)) = 1) := by
  refine ⟨by decide, by decide, ?_⟩
  decide

/-- C1: the code at the concrete minimizing node.  On `passBoard` with root
side White at a minimizing node, the side to move (Black) has no legal move
while the opponent of the side to move (White) still has one; the claim then
mandates a forced-pass recursion, but `minimax` — which tests the moves of
the opponent of the root side instead of the opponent of the side to move —
returns the static evaluation as if the game were over, and the mandated
pass recursion produces a different value (190 instead of 225). -/
theorem minimax_pass_code_bug :
    aiGetValidMovesForBoard passBoard BLACK = [] ∧
      aiGetValidMovesForBoard passBoard WHITE ≠ [] ∧
      minimax passBoard 2 false Score.negInf Score.posInf WHITE =
        Score.val (evaluateBoard passBoard WHITE) ∧
      evaluateBoard passBoard WHITE = 225 ∧
      minimax passBoard 1 true Score.negInf Score.posInf WHITE = Score.val 190 := by
  decide

/-- The score of minus infinity is below every score. -/
theorem Score.negInf_le (s : Score) : Score.negInf ≤ s := by cases s <;> rfl

/-- Every score is below plus infinity. -/
theorem Score.le_posInf (s : Score) : s ≤ Score.posInf := by cases s <;> rfl

/-- Comparison of finite scores is integer comparison. -/
theorem Score.val_le_val {a b : Int} : Score.val a ≤ Score.val b ↔ a ≤ b := by
  show Score.ble (Score.val a) (Score.val b) = true ↔ a ≤ b
  simp [Score.ble]

/-- A finite score is strictly below plus infinity. -/
theorem Score.val_lt_posInf (n : Int) : Score.val n < Score.posInf := by
  refine lt_of_le_of_ne (Score.le_posInf _) ?_
  intro h
  cases h

/-- Minus infinity is strictly below every finite score. -/
theorem Score.negInf_lt_val (n : Int) : Score.negInf < Score.val n := by
  refine lt_of_le_of_ne (Score.negInf_le _) ?_
  intro h
  cases h

/-- Minus infinity is strictly below plus infinity. -/
theorem Score.negInf_lt_posInf : Score.negInf < Score.posInf := by
  refine lt_of_le_of_ne (Score.negInf_le _) ?_
  intro h
  cases h

/-- The maximum of two finite scores is finite. -/
theorem Score.max_val (a b : Int) :
    max (Score.val a) (Score.val b) = Score.val (max a b) := by
  rcases le_total a b with h | h
  · rw [max_eq_right (Score.val_le_val.mpr h), max_eq_right h]
  · rw [max_eq_left (Score.val_le_val.mpr h), max_eq_left h]

/-- The minimum of two finite scores is finite. -/
theorem Score.min_val (a b : Int) :
    min (Score.val a) (Score.val b) = Score.val (min a b) := by
  rcases le_total a b with h | h
  · rw [min_eq_left (Score.val_le_val.mpr h), min_eq_left h]
  · rw [min_eq_right (Score.val_le_val.mpr h), min_eq_right h]

/-- A max-fold only grows its accumulator. -/
theorem le_foldl_max (g : Move → Score) :
    ∀ (l : List Move) (a : Score), a ≤ l.foldl (fun acc m => max acc (g m)) a := by
  intro l
  induction l with
  | nil => intro a; exact le_refl a
  | cons m rest ih =>
    intro a
    exact le_trans (le_max_left a (g m)) (ih (max a (g m)))

/-- A min-fold only shrinks its accumulator. -/
theorem foldl_min_le (g : Move → Score) :
    ∀ (l : List Move) (a : Score), l.foldl (fun acc m => min acc (g m)) a ≤ a := by
  intro l
  induction l with
  | nil => intro a; exact le_refl a
  | cons m rest ih =>
    intro a
    exact le_trans (ih (min a (g m))) (min_le_left a (g m))

/-- A max-fold of finite scores from a finite accumulator is finite. -/
theorem foldl_max_finite (g : Move → Score) :
    ∀ (l : List Move) (a : Int), (∀ m ∈ l, ∃ n : Int, g m = Score.val n) →
      ∃ n : Int, l.foldl (fun acc m => max acc (g m)) (Score.val a) = Score.val n := by
  intro l
  induction l with
  | nil => intro a _; exact ⟨a, rfl⟩
  | cons m rest ih =>
    intro a hfin
    obtain ⟨n, hn⟩ := hfin m (List.mem_cons_self _ _)
    simp only [List.foldl_cons, hn, Score.max_val]
    exact ih (max a n) (fun x hx => hfin x (List.mem_cons_of_mem _ hx))

/-- A min-fold of finite scores from a finite accumulator is finite. -/
theorem foldl_min_finite (g : Move → Score) :
    ∀ (l : List Move) (a : Int), (∀ m ∈ l, ∃ n : Int, g m = Score.val n) →
      ∃ n : Int, l.foldl (fun acc m => min acc (g m)) (Score.val a) = Score.val n := by
  intro l
  induction l with
  | nil => intro a _; exact ⟨a, rfl⟩
  | cons m rest ih =>
    intro a hfin
    obtain ⟨n, hn⟩ := hfin m (List.mem_cons_self _ _)
    simp only [List.foldl_cons, hn, Score.min_val]
    exact ih (min a n) (fun x hx => hfin x (List.mem_cons_of_mem _ hx))

/-- The full-width minimax value is always a finite score. -/
theorem minimaxFull_finite (player : Nat) :
    ∀ (depth : Nat) (b : Board) (maximizing : Bool),
      ∃ n : Int, minimaxFull b depth maximizing player = Score.val n := by
  intro depth
  induction depth with
  | zero => intro b maximizing; exact ⟨evaluateBoard b player, rfl⟩
  | succ d ih =>
    intro b maximizing
    simp only [minimaxFull]
    by_cases hvm : (aiGetValidMovesForBoard b
        (if maximizing = true then player else oppAI player)).length = 0
    · rw [if_pos hvm]
      by_cases hop : (aiGetValidMovesForBoard b (oppAI player)).length = 0
      · rw [if_pos hop]
        exact ⟨evaluateBoard b player, rfl⟩
      · rw [if_neg hop]
        exact ih b (!maximizing)
    · rw [if_neg hvm]
      have hne : aiGetValidMovesForBoard b
          (if maximizing = true then player else oppAI player) ≠ [] := by
        intro h
        exact hvm (by rw [h]; rfl)
      obtain ⟨m, rest, hmr⟩ := List.exists_cons_of_ne_nil hne
      by_cases hmx : maximizing = true
      · rw [if_pos hmx, hmr]
        simp only [List.foldl_cons]
        rw [max_eq_right (Score.negInf_le _)]
        obtain ⟨n, hn⟩ :=
          ih (childBoard b m (if maximizing = true then player else oppAI player)) false
        rw [hn]
        exact foldl_max_finite _ rest n (fun x _ => ih _ false)
      · rw [if_neg hmx, hmr]
        simp only [List.foldl_cons]
        rw [min_eq_right (Score.le_posInf _)]
        obtain ⟨n, hn⟩ :=
          ih (childBoard b m (if maximizing = true then player else oppAI player)) true
        rw [hn]
        exact foldl_min_finite _ rest n (fun x _ => ih _ true)

/-- Fail-hard bounds for the maximizing alpha-beta loop: provided every child
search is fail-hard correct against its full-width value `g m`, the loop
result is below `alpha` when the full-width fold is, equals the full-width
fold when that fold lies strictly inside the window, and is above `beta` when
the fold is; it also never drops below its accumulator. -/
theorem abMaxLoop_bounds (recur : Board → Score → Score → Score)
    (b : Board) (cp : Nat) (g : Move → Score) :
    ∀ (moves : List Move) (alpha beta ms mt : Score),
      alpha < beta → ms ≤ alpha → mt ≤ alpha →
      (∀ m ∈ moves, ∀ a bb : Score, a < bb →
        ((g m ≤ a → recur (childBoard b m cp) a bb ≤ a) ∧
         (a < g m → g m < bb → recur (childBoard b m cp) a bb = g m) ∧
         (bb ≤ g m → bb ≤ recur (childBoard b m cp) a bb))) →
      ms ≤ abMaxLoop recur b cp moves alpha beta ms ∧
      (moves.foldl (fun acc m => max acc (g m)) mt ≤ alpha →
        abMaxLoop recur b cp moves alpha beta ms ≤ alpha) ∧
      (alpha < moves.foldl (fun acc m => max acc (g m)) mt →
        moves.foldl (fun acc m => max acc (g m)) mt < beta →
        abMaxLoop recur b cp moves alpha beta ms =
          moves.foldl (fun acc m => max acc (g m)) mt) ∧
      (beta ≤ moves.foldl (fun acc m => max acc (g m)) mt →
        beta ≤ abMaxLoop recur b cp moves alpha beta ms) := by
  intro moves
  induction moves with
  | nil =>
    intro alpha beta ms mt hab hms hmt _
    simp only [abMaxLoop, List.foldl_nil]
    exact ⟨le_refl ms, fun _ => hms,
      fun h1 _ => absurd h1 (not_lt.mpr hmt),
      fun h1 => absurd (lt_of_lt_of_le hab h1) (not_lt.mpr hmt)⟩
  | cons m rest ih =>
    intro alpha beta ms mt hab hms hmt hrec
    obtain ⟨hrec1, hrec2, hrec3⟩ := hrec m (List.mem_cons_self _ _) alpha beta hab
    have hrest := fun x hx => hrec x (List.mem_cons_of_mem _ hx)
    simp only [abMaxLoop, List.foldl_cons]
    by_cases hga : g m ≤ alpha
    · have hr : recur (childBoard b m cp) alpha beta ≤ alpha := hrec1 hga
      rw [max_eq_left hr, if_neg (not_le.mpr hab)]
      obtain ⟨c0, c1, c2, c3⟩ := ih alpha beta
        (max ms (recur (childBoard b m cp) alpha beta)) (max mt (g m))
        hab (max_le hms hr) (max_le hmt hga) hrest
      exact ⟨le_trans (le_max_left _ _) c0, c1, c2, c3⟩
    · have hga' : alpha < g m := not_le.mp hga
      by_cases hgb : g m < beta
      · have hr : recur (childBoard b m cp) alpha beta = g m := hrec2 hga' hgb
        rw [hr, max_eq_right (le_of_lt hga'), if_neg (not_le.mpr hgb),
          max_eq_right (le_of_lt (lt_of_le_of_lt hms hga')),
          max_eq_right (le_of_lt (lt_of_le_of_lt hmt hga'))]
        obtain ⟨c0, c1, c2, c3⟩ := ih (g m) beta (g m) (g m)
          hgb (le_refl _) (le_refl _) hrest
        have hT : g m ≤ List.foldl (fun acc x => max acc (g x)) (g m) rest :=
          le_foldl_max g rest (g m)
        refine ⟨le_trans (le_of_lt (lt_of_le_of_lt hms hga')) c0, ?_, ?_, c3⟩
        · intro hTa
          exact absurd (le_trans hT hTa) hga
        · intro _ hTb
          rcases eq_or_lt_of_le hT with hTeq | hTlt
          · rw [← hTeq]
            exact le_antisymm (c1 (le_of_eq hTeq.symm)) c0
          · exact c2 hTlt hTb
      · have hgb' : beta ≤ g m := not_lt.mp hgb
        have hr : beta ≤ recur (childBoard b m cp) alpha beta := hrec3 hgb'
        rw [if_pos (le_trans hr (le_max_right alpha _))]
        have hT : g m ≤ List.foldl (fun acc x => max acc (g x)) (max mt (g m)) rest :=
          le_trans (le_max_right mt (g m)) (le_foldl_max g rest _)
        refine ⟨le_max_left _ _, ?_, ?_, ?_⟩
        · intro hTa
          exact absurd (le_trans hgb' (le_trans hT hTa)) (not_le.mpr hab)
        · intro _ hTb
          exact absurd (lt_of_le_of_lt (le_trans hgb' hT) hTb) (lt_irrefl beta)
        · intro _
          exact le_trans hr (le_max_right ms _)

/-- Fail-hard bounds for the minimizing alpha-beta loop, dual to
`abMaxLoop_bounds`. -/
theorem abMinLoop_bounds (recur : Board → Score → Score → Score)
    (b : Board) (cp : Nat) (g : Move → Score) :
    ∀ (moves : List Move) (alpha beta ms mt : Score),
      alpha < beta → beta ≤ ms → beta ≤ mt →
      (∀ m ∈ moves, ∀ a bb : Score, a < bb →
        ((g m ≤ a → recur (childBoard b m cp) a bb ≤ a) ∧
         (a < g m → g m < bb → recur (childBoard b m cp) a bb = g m) ∧
         (bb ≤ g m → bb ≤ recur (childBoard b m cp) a bb))) →
      abMinLoop recur b cp moves alpha beta ms ≤ ms ∧
      (moves.foldl (fun acc m => min acc (g m)) mt ≤ alpha →
        abMinLoop recur b cp moves alpha beta ms ≤ alpha) ∧
      (alpha < moves.foldl (fun acc m => min acc (g m)) mt →
        moves.foldl (fun acc m => min acc (g m)) mt < beta →
        abMinLoop recur b cp moves alpha beta ms =
          moves.foldl (fun acc m => min acc (g m)) mt) ∧
      (beta ≤ moves.foldl (fun acc m => min acc (g m)) mt →
        beta ≤ abMinLoop recur b cp moves alpha beta ms) := by
  intro moves
  induction moves with
  | nil =>
    intro alpha beta ms mt hab hms hmt _
    simp only [abMinLoop, List.foldl_nil]
    exact ⟨le_refl ms,
      fun h1 => absurd (lt_of_lt_of_le hab (le_trans hmt h1)) (lt_irrefl alpha),
      fun _ h2 => absurd (lt_of_le_of_lt hmt h2) (lt_irrefl beta),
      fun _ => hms⟩
  | cons m rest ih =>
    intro alpha beta ms mt hab hms hmt hrec
    obtain ⟨hrec1, hrec2, hrec3⟩ := hrec m (List.mem_cons_self _ _) alpha beta hab
    have hrest := fun x hx => hrec x (List.mem_cons_of_mem _ hx)
    simp only [abMinLoop, List.foldl_cons]
    by_cases hgb : beta ≤ g m
    · have hr : beta ≤ recur (childBoard b m cp) alpha beta := hrec3 hgb
      rw [min_eq_left hr, if_neg (not_le.mpr hab)]
      obtain ⟨c0, c1, c2, c3⟩ := ih alpha beta
        (min ms (recur (childBoard b m cp) alpha beta)) (min mt (g m))
        hab (le_min hms hr) (le_min hmt hgb) hrest
      exact ⟨le_trans c0 (min_le_left _ _), c1, c2, c3⟩
    · have hgb' : g m < beta := not_le.mp hgb
      by_cases hga : alpha < g m
      · have hr : recur (childBoard b m cp) alpha beta = g m := hrec2 hga hgb'
        rw [hr, min_eq_right (le_of_lt hgb'), if_neg (not_le.mpr hga),
          min_eq_right (le_of_lt (lt_of_lt_of_le hgb' hms)),
          min_eq_right (le_of_lt (lt_of_lt_of_le hgb' hmt))]
        obtain ⟨c0, c1, c2, c3⟩ := ih alpha (g m) (g m) (g m)
          hga (le_refl _) (le_refl _) hrest
        have hT : List.foldl (fun acc x => min acc (g x)) (g m) rest ≤ g m :=
          foldl_min_le g rest (g m)
        refine ⟨le_trans c0 (le_of_lt (lt_of_lt_of_le hgb' hms)), c1, ?_, ?_⟩
        · intro hTa hTb
          rcases eq_or_lt_of_le hT with hTeq | hTlt
          · rw [hTeq]
            exact le_antisymm c0 (c3 (le_of_eq hTeq.symm))
          · exact c2 hTa hTlt
        · intro hTb
          exact absurd (lt_of_le_of_lt (le_trans hTb hT) hgb') (lt_irrefl beta)
      · have hga' : g m ≤ alpha := not_lt.mp hga
        have hr : recur (childBoard b m cp) alpha beta ≤ alpha := hrec1 hga'
        rw [if_pos (le_trans (min_le_right beta _) hr)]
        have hT : List.foldl (fun acc x => min acc (g x)) (min mt (g m)) rest ≤ g m :=
          le_trans (foldl_min_le g rest _) (min_le_right mt (g m))
        refine ⟨min_le_left _ _, ?_, ?_, ?_⟩
        · intro _
          exact le_trans (min_le_right ms _) hr
        · intro hTa _
          exact absurd (lt_of_lt_of_le hTa (le_trans hT hga')) (lt_irrefl alpha)
        · intro hTb
          exact absurd (lt_of_lt_of_le hab (le_trans hTb (le_trans hT hga')))
            (lt_irrefl alpha)

/-- Fail-hard correctness of the pruned search against the full-width value:
below the window the pruned result stays below `alpha`, inside the window it
equals the full-width minimax value, above it stays above `beta`. -/
theorem minimax_bounds (player : Nat) :
    ∀ (depth : Nat) (b : Board) (maximizing : Bool) (alpha beta : Score),
      alpha < beta →
      ((minimaxFull b depth maximizing player ≤ alpha →
          minimax b depth maximizing alpha beta player ≤ alpha) ∧
       (alpha < minimaxFull b depth maximizing player →
          minimaxFull b depth maximizing player < beta →
          minimax b depth maximizing alpha beta player =
            minimaxFull b depth maximizing player) ∧
       (beta ≤ minimaxFull b depth maximizing player →
          beta ≤ minimax b depth maximizing alpha beta player)) := by
  intro depth
  induction depth with
  | zero =>
    intro b maximizing alpha beta hab
    exact ⟨fun h => h, fun _ _ => rfl, fun h => h⟩
  | succ d ih =>
    intro b maximizing alpha beta hab
    cases maximizing
    · simp only [minimax, minimaxFull, Bool.false_eq_true, if_false, Bool.not_false]
      by_cases hvm : (aiGetValidMovesForBoard b (oppAI player)).length = 0
      · rw [if_pos hvm, if_pos hvm, if_pos hvm, if_pos hvm]
        exact ⟨fun h => h, fun _ _ => rfl, fun h => h⟩
      · rw [if_neg hvm, if_neg hvm]
        obtain ⟨_, c1, c2, c3⟩ := abMinLoop_bounds
          (fun tb a bb => minimax tb d true a bb player) b (oppAI player)
          (fun m => minimaxFull (childBoard b m (oppAI player)) d true player)
          (aiGetValidMovesForBoard b (oppAI player))
          alpha beta Score.posInf Score.posInf hab
          (Score.le_posInf beta) (Score.le_posInf beta)
          (fun m _ a bb h => ih (childBoard b m (oppAI player)) true a bb h)
        exact ⟨c1, c2, c3⟩
    · simp only [minimax, minimaxFull, eq_self_iff_true, if_true, Bool.not_true]
      by_cases hvm : (aiGetValidMovesForBoard b player).length = 0
      · rw [if_pos hvm, if_pos hvm]
        by_cases hop : (aiGetValidMovesForBoard b (oppAI player)).length = 0
        · rw [if_pos hop, if_pos hop]
          exact ⟨fun h => h, fun _ _ => rfl, fun h => h⟩
        · rw [if_neg hop, if_neg hop]
          exact ih b false alpha beta hab
      · rw [if_neg hvm, if_neg hvm]
        obtain ⟨_, c1, c2, c3⟩ := abMaxLoop_bounds
          (fun tb a bb => minimax tb d false a bb player) b player
          (fun m => minimaxFull (childBoard b m player) d false player)
          (aiGetValidMovesForBoard b player)
          alpha beta Score.negInf Score.negInf hab
          (Score.negInf_le alpha) (Score.negInf_le alpha)
          (fun m _ a bb h => ih (childBoard b m player) false a bb h)
        exact ⟨c1, c2, c3⟩

/-- The root loops of the pruned and the full-width selection agree move by
move: the running best score doubles as the root alpha, children searched
with the window `(bestScore, +Infinity)` report their exact full-width value
whenever it beats the best score and otherwise report something not beating
it, so best move and best score evolve identically. -/
theorem selectLoop_agree (b : Board) (player : Nat) :
    ∀ (moves : List Move) (bm : Option Move) (bs : Score),
      bs < Score.posInf →
      (∀ m ∈ moves, ∃ n : Int,
        minimaxFull (childBoard b m player) 3 false player = Score.val n) →
      selectMinimaxLoop b player moves bs Score.posInf bm bs =
        selectFullLoop b player moves bm bs := by
  intro moves
  induction moves with
  | nil => intro bm bs _ _; rfl
  | cons m rest ih =>
    intro bm bs hbs hfin
    obtain ⟨n, hn⟩ := hfin m (List.mem_cons_self _ _)
    obtain ⟨c1, c2, c3⟩ :=
      minimax_bounds player 3 (childBoard b m player) false bs Score.posInf hbs
    rw [hn] at c1 c2
    have hrestfin := fun x hx => hfin x (List.mem_cons_of_mem _ hx)
    simp only [selectMinimaxLoop, selectFullLoop, hn]
    by_cases hlt : bs < Score.val n
    · have hr : minimax (childBoard b m player) 3 false bs Score.posInf player =
          Score.val n := c2 hlt (Score.val_lt_posInf n)
      rw [hr, if_pos hlt, if_pos hlt, max_eq_right (le_of_lt hlt)]
      exact ih (some m) (Score.val n) (Score.val_lt_posInf n) hrestfin
    · have hr : minimax (childBoard b m player) 3 false bs Score.posInf player ≤ bs :=
        c1 (not_lt.mp hlt)
      rw [if_neg (not_lt.mpr hr), if_neg (not_lt.mpr hr), if_neg hlt, if_neg hlt,
        max_eq_left hr]
      exact ih bm bs hbs hrestfin

/-- C6: for every board and side with at least one legal move, the move
selected by Tier 3 with alpha-beta cutoffs and its score coincide with the
selection of the full-width minimax with no cutoffs over the same row-major
child ordering. -/
theorem tier3_pruning_correct (b : Board) (player : Nat)
    (hp : player = BLACK ∨ player = WHITE)
    (hmoves : gameGetValidMoves b player ≠ []) :
    selectMinimaxPair b player = selectFullPair b player := by
  unfold selectMinimaxPair selectFullPair
  exact selectLoop_agree b player (gameGetValidMoves b player) none Score.negInf
    Score.negInf_lt_posInf
    (fun m _ => minimaxFull_finite player 3 (childBoard b m player) false)

theorem tier3_pruning_correct_witness :
    (WHITE = BLACK ∨ WHITE = WHITE) ∧ gameGetValidMoves passBoard WHITE ≠ [] ∧
      selectMinimaxPair passBoard WHITE = selectFullPair passBoard WHITE :=
  ⟨Or.inr rfl, by decide,
    tier3_pruning_correct passBoard WHITE (Or.inr rfl) (by decide)⟩
